import Mathlib

/-!
Verification of the aspora retrieval core (src/pipeline): the sentence-aware
chunker, the hybrid BM25 + vector search with Reciprocal Rank Fusion, the
neighbor-expansion step of retrieval, and the vector-store document lifecycle
(add / delete / recreate-and-retry).  Python strings are modelled as lists of
characters, Python floats on the score path as rationals, and the external
collaborators (embedding model, Chroma collection, BM25 library scorer, LLM)
as explicit oracle arguments.
-/

namespace Aspora

/-! ## Basic Python string modelling -/

/-- Python strings, modelled as lists of characters (code points). -/
abbrev Str := List Char

/-- Whitespace set of Python str.strip and of the regex class \s, for ASCII:
space, tab, newline, carriage return, vertical tab, form feed. -/
def pyIsSpace (c : Char) : Bool :=
  c = ' ' || c = '\t' || c = '\n' || c = '\r' || c = '\x0b' || c = '\x0c'

/-- Python str.strip(): drop leading and trailing whitespace. -/
def pyStrip (s : Str) : Str :=
  ((s.dropWhile pyIsSpace).reverse.dropWhile pyIsSpace).reverse

/-- Stable descending insertion: place a before the first element with a
strictly smaller key, after all elements with greater-or-equal key.  This is
the behaviour of Python sorted(..., key=key, reverse=True) on ties. -/
def insertDesc (key : α → ℚ) (a : α) : List α → List α
  | [] => [a]
  | b :: l => if key b < key a then a :: b :: l else b :: insertDesc key a l

/-- Python sorted(l, key=key, reverse=True): stable, descending by key. -/
def sortDesc (key : α → ℚ) (l : List α) : List α :=
  l.foldl (fun acc a => insertDesc key a acc) []

/-- Index of the last space character in a string, if any. -/
def lastSpaceIdx : Str → Option Nat
  | [] => none
  | c :: cs =>
    match lastSpaceIdx cs with
    | some j => some (j + 1)
    | none => if c = ' ' then some 0 else none

/-- Index of the first space character in a string, if any. -/
def firstSpaceIdx : Str → Option Nat
  | [] => none
  | c :: cs => if c = ' ' then some 0 else (firstSpaceIdx cs).map (· + 1)

/-- Python s[0:e] for an integer end index (a negative index counts from the
end of the string). -/
def pySlice0 (s : Str) (e : Int) : Str :=
  if e < 0 then s.take (s.length - (-e).toNat) else s.take e.toNat

/-- Python s[i:] for an integer start index (a negative index counts from
the end of the string). -/
def pySliceFrom (s : Str) (i : Int) : Str :=
  if i < 0 then s.drop (s.length - (-i).toNat) else s.drop i.toNat

/-- Python s.find(" ", start) for a nonnegative start index: the lowest
index of a space at or after start, else -1. -/
def pyFindSpace (s : Str) (start : Nat) : Int :=
  match firstSpaceIdx (s.drop start) with
  | some j => ((start + j : Nat) : Int)
  | none => -1

/-- Python s.rfind(" ", 0, e): the highest index of a space in s[0:e],
else -1. -/
def pyRfindSpace (s : Str) (e : Int) : Int :=
  match lastSpaceIdx (pySlice0 s e) with
  | some i => (i : Int)
  | none => -1

/-! ## Chunker (src/pipeline/chunker.py) -/

/-- Chunker configuration. -/
structure Chunker where
  chunk_size : Int
  chunk_overlap : Int
deriving DecidableEq

/-- Chunker.__init__: raises ValueError unless chunk_overlap < chunk_size. -/
def mkChunker (chunk_size chunk_overlap : Int) : Except Str Chunker :=
  if chunk_overlap ≥ chunk_size then
    Except.error "chunk_overlap must be smaller than chunk_size".data
  else Except.ok (Chunker.mk chunk_size chunk_overlap)

/-- Chunker._safe_overlap: overlap tail of up to chunk_overlap characters
from the end of text, moved forward to just after the next space so no word
is cut. -/
def safeOverlap (ov : Int) (text : Str) : Str :=
  if text = [] ∨ ov ≤ 0 then []
  else if (text.length : Int) ≤ ov then text
  else
    let start := text.length - ov.toNat
    let si := pyFindSpace text start
    if si = -1 then text.drop start
    else text.drop (si.toNat + 1)

/-- The hard-split tail of Chunker._append_with_limit: split at the last
space strictly before chunk_size, else at exactly chunk_size; both pieces
are stripped. -/
def hardSplit (sz : Int) (nc : Str) : Str × Str :=
  let r := pyRfindSpace nc sz
  let si := if r = -1 then sz else r
  (pyStrip (pySlice0 nc si), pyStrip (pySliceFrom nc si))

/-- Chunker._append_with_limit: the state is (chunks emitted so far, current
buffer); returns the updated state after appending addition. -/
def awl (sz ov : Int) (st : List Str × Str) (addition : Str) :
    List Str × Str :=
  let current := st.2
  let candidate :=
    if current ≠ [] then pyStrip (current ++ ' ' :: addition) else addition
  if (candidate.length : Int) ≤ sz then (st.1, candidate)
  else
    let chs := if current ≠ [] then st.1 ++ [pyStrip current] else st.1
    let ovText := safeOverlap ov current
    let newChunk :=
      if ovText ≠ [] then pyStrip (ovText ++ ' ' :: addition) else addition
    if (newChunk.length : Int) > sz then
      let pr := hardSplit sz newChunk
      (chs ++ [pr.1], pr.2)
    else (chs, newChunk)

/-- Does the whitespace run starting the given string contain a newline?
This decides whether the separator regex \n\s*\n matches at a newline
followed by this string. -/
def nlInRun (cs : Str) : Bool := (cs.takeWhile pyIsSpace).contains '\n'

/-- A paragraph-separator match starts here: a newline whose following
whitespace run contains another newline. -/
def breakHere (c : Char) (cs : Str) : Bool := decide (c = '\n') && nlInRun cs

/-- Remainder after the greedy match of \n\s*\n: the match extends through
the last newline of the whitespace run, so the remainder is the run's tail
after that newline, then the rest of the string. -/
def afterBreak (cs : Str) : Str :=
  let ws := cs.takeWhile pyIsSpace
  (ws.reverse.takeWhile (fun c => !decide (c = '\n'))).reverse ++
    cs.drop ws.length

/-- Scanner for re.split of \n\s*\n over text; acc holds the current piece
reversed; fuel bounds the recursion (text length + 1 suffices, since every
step consumes at least one character). -/
def paraSplitAux : Nat → Str → Str → List Str
  | 0, acc, rest => [acc.reverse ++ rest]
  | fuel + 1, acc, rest =>
    match rest with
    | [] => [acc.reverse]
    | c :: cs =>
      if breakHere c cs then acc.reverse :: paraSplitAux fuel [] (afterBreak cs)
      else paraSplitAux fuel (c :: acc) cs

/-- Does text contain a blank-line paragraph separator (a match of the
regex \n\s*\n)? -/
def hasParaBreak : Str → Bool
  | [] => false
  | c :: cs => breakHere c cs || hasParaBreak cs

/-- Chunker._split_paragraphs: split on blank-line separators, strip each
piece, drop the empty ones. -/
def splitParas (text : Str) : List Str :=
  ((paraSplitAux (text.length + 1) [] text).map pyStrip).filter
    (fun p => !p.isEmpty)

/-- A sentence boundary of the regex split (?<=[.!?])\s+(?=[A-Z]): the
previous character is sentence punctuation and the string starts with a
whitespace run followed by an ASCII uppercase letter. -/
def sentBoundary (prev : Char) (rest : Str) : Bool :=
  (prev == '.' || prev == '!' || prev == '?') &&
    (match rest with
     | [] => false
     | c :: _ => pyIsSpace c) &&
    (match rest.dropWhile pyIsSpace with
     | [] => false
     | c :: _ => decide ('A' ≤ c) && decide (c ≤ 'Z'))

/-- Scanner for Chunker._split_sentences' regex split; acc holds the
current sentence reversed, head first. -/
def sentSplitAux : Nat → Str → Str → List Str
  | 0, acc, rest => [acc.reverse ++ rest]
  | fuel + 1, acc, rest =>
    match rest with
    | [] => [acc.reverse]
    | c :: cs =>
      match acc with
      | [] => sentSplitAux fuel [c] cs
      | p :: _ =>
        if sentBoundary p (c :: cs) then
          acc.reverse :: sentSplitAux fuel [] ((c :: cs).dropWhile pyIsSpace)
        else sentSplitAux fuel (c :: acc) cs

/-- Chunker._split_sentences: regex split, strip, drop empties. -/
def splitSents (p : Str) : List Str :=
  ((sentSplitAux (p.length + 1) [] p).map pyStrip).filter
    (fun s => !s.isEmpty)

/-- Chunker._merge_paragraphs: merge paragraphs into size-bounded chunks,
splitting an oversized paragraph into sentences first. -/
def mergeParas (sz ov : Int) (paras : List Str) : List Str :=
  let st := paras.foldl
    (fun st p =>
      if (p.length : Int) > sz then (splitSents p).foldl (awl sz ov) st
      else awl sz ov st p)
    ([], [])
  if st.2 ≠ [] then st.1 ++ [pyStrip st.2] else st.1

/-- Chunker.chunk: empty or whitespace-only input yields no chunks;
otherwise strip, split into paragraphs, merge. -/
def chunkText (sz ov : Int) (text : Str) : List Str :=
  if pyStrip text = [] then []
  else mergeParas sz ov (splitParas (pyStrip text))

/-! ## Data model of the vector store (src/pipeline/vector_store.py) -/

/-- The metadata record attached to a chunk (open Python dicts are modelled
by this fixed record of optional fields; absent keys are none). -/
structure Meta where
  doc_id : Option Str := none
  chunk_index : Option Int := none
  file_name : Option Str := none
  document_name : Option Str := none
  page : Option Int := none
  page_number : Option Int := none
  page_start : Option Int := none
  page_end : Option Int := none
  url : Option Str := none
deriving DecidableEq

/-- A search-result row: chunk text, metadata, optional distance. -/
structure Rec where
  document : Str
  metadata : Meta
  distance : Option ℚ := none
deriving DecidableEq

/-- A stored row of the Chroma collection: composite id, text, metadata. -/
structure Entry where
  eid : Str
  document : Str
  metadata : Meta
deriving DecidableEq

/-- Manager state: the Chroma collection rows and the _bm25_docs snapshot
the BM25 index was last built from. -/
structure VSState where
  entries : List Entry
  bm25docs : List Entry
deriving DecidableEq

/-- Composite chunk id f"{doc_id}_{i}". -/
def cid (d : Str) (i : Int) : Str := d ++ '_' :: (toString i).data

/-- VectorStoreManager._delete_by_doc_id_prefix: drop all rows whose id
starts with f"{doc_id}_". -/
def delByDocId (entries : List Entry) (d : Str) : List Entry :=
  entries.filter (fun e => !((d ++ ['_']).isPrefixOf e.eid))

/-- VectorStoreManager._rebuild_bm25: _bm25_docs becomes the list of
(id, document, metadata) rows currently in the collection; the BM25Okapi
object built over their tokens is the external scorer. -/
def rebuildBM25 (entries : List Entry) : List Entry := entries

/-- Python exceptions relevant to the store paths. -/
inductive PyErr where
  | valueErr : PyErr
  | stopIter : PyErr
  | upstream : Nat → PyErr
deriving DecidableEq

/-- Outcome of an external collection call. -/
inductive Outcome where
  | ok : Outcome
  | fail : PyErr → Outcome
deriving DecidableEq

/-- How VectorStoreManager.add receives its metadata argument. -/
inductive MetaArg where
  | single : Meta → MetaArg
  | perChunk : List Meta → MetaArg
  | noMeta : MetaArg

/-- The metadatas normalization at the top of VectorStoreManager.add:
the batch position i overrides any caller-supplied chunk_index in every
branch; a metadata list of the wrong length degrades to bare records. -/
def computeMetadatas (marg : MetaArg) (n : Nat) : List Meta :=
  match marg with
  | MetaArg.single md =>
      (List.range n).map (fun (i : Nat) =>
        { md with chunk_index := some (Int.ofNat i) })
  | MetaArg.perChunk ms =>
      if ms.length = n then
        ms.enum.map (fun p =>
          { p.2 with chunk_index := some (Int.ofNat p.1) })
      else
        (List.range n).map (fun (i : Nat) =>
          ({ chunk_index := some (Int.ofNat i) } : Meta))
  | MetaArg.noMeta =>
      (List.range n).map (fun (i : Nat) =>
        ({ chunk_index := some (Int.ofNat i) } : Meta))

/-- metadatas[0].get("doc_id") followed by Python's falsiness test
(if not doc_id): a missing or empty doc_id is rejected. -/
def docIdOfMetas (ms : List Meta) : Option Str :=
  match ms with
  | [] => none
  | m :: _ =>
    match m.doc_id with
    | some s => if s.isEmpty then none else some s
    | none => none

/-- The rows written by collection.add inside VectorStoreManager.add:
ids f"{doc_id}_{i}" over the batch positions. -/
def mkBatch (d : Str) (chunks : List Str) (ms : List Meta) : List Entry :=
  (List.range chunks.length).map (fun (i : Nat) =>
    Entry.mk (cid d (Int.ofNat i)) (chunks.getD i []) (ms.getD i {}))

/-- VectorStoreManager.add.  The embedding call always precedes the write;
the two collection.add attempts are external: a1 is the first attempt's
outcome; on a StopIteration the collection is recreated (emptied) once and
a2 is the retry's outcome, whose failure propagates.  Returns the final
manager state and the raised error, if any. -/
def addOp (st : VSState) (chunks : List Str) (marg : MetaArg)
    (a1 a2 : Outcome) : VSState × Option PyErr :=
  if chunks.isEmpty then (st, none)
  else
    let ms := computeMetadatas marg chunks.length
    match docIdOfMetas ms with
    | none => (st, some PyErr.valueErr)
    | some d =>
      let ents := delByDocId st.entries d
      let batch := mkBatch d chunks ms
      match a1 with
      | Outcome.ok =>
          (VSState.mk (ents ++ batch) (rebuildBM25 (ents ++ batch)), none)
      | Outcome.fail PyErr.stopIter =>
          match a2 with
          | Outcome.ok => (VSState.mk batch (rebuildBM25 batch), none)
          | Outcome.fail e => (VSState.mk [] st.bm25docs, some e)
      | Outcome.fail e => (VSState.mk ents st.bm25docs, some e)

/-- VectorStoreManager.delete: removes the chunks with the doc-id marker
from the collection.  Note that it does not rebuild the BM25 index. -/
def deleteOp (st : VSState) (d : Str) : VSState :=
  VSState.mk (delByDocId st.entries d) st.bm25docs

/-- KnowledgeBase.delete_document: the registry removal runs first and the
vector-store delete runs only when the registry knew the document. -/
def kbDeleteDocument (reg : List Str) (st : VSState) (d : Str) :
    List Str × VSState × Bool :=
  if d ∈ reg then (reg.filter (fun x => x != d), deleteOp st d, true)
  else (reg, st, false)

/-! ## Hybrid search and Reciprocal Rank Fusion -/

/-- Dictionary lookup with default (Python dict.get(k, v0)) on an
insertion-ordered association list. -/
def dictGetD : List (Str × α) → Str → α → α
  | [], _, v0 => v0
  | p :: rest, k, v0 => if p.1 = k then p.2 else dictGetD rest k v0

/-- Python dict assignment d[k] = v on an insertion-ordered dict: replace in
place, else append. -/
def dictUpsert : List (Str × α) → Str → α → List (Str × α)
  | [], k, v => [(k, v)]
  | p :: rest, k, v =>
    if p.1 = k then (k, v) :: rest else p :: dictUpsert rest k v

/-- Python k in d. -/
def dictHasKey : List (Str × α) → Str → Bool
  | [], _ => false
  | p :: rest, k => p.1 == k || dictHasKey rest k

/-- One RRF accumulation loop of VectorStoreManager.search: for the item at
0-based rank r, fusion_scores[document] += 1 / (60 + r). -/
def rrfPass (rank : Nat) (items : List Rec) (d : List (Str × ℚ)) :
    List (Str × ℚ) :=
  match items with
  | [] => d
  | r :: rest =>
    rrfPass (rank + 1) rest
      (dictUpsert d r.document
        (dictGetD d r.document 0 + 1 / (60 + (rank : ℚ))))

/-- fusion_scores after the vector pass then the BM25 pass (RRF_K = 60);
the key is the chunk text. -/
def fusionScores (vector_results bm25_results : List Rec) :
    List (Str × ℚ) :=
  rrfPass 0 bm25_results (rrfPass 0 vector_results [])

/-- The fused score of a chunk text. -/
def fscore (vr br : List Rec) (k : Str) : ℚ :=
  dictGetD (fusionScores vr br) k 0

/-- The merged dict of VectorStoreManager.search: vector results first,
then the BM25 results not already present, keyed by chunk text. -/
def mergedDict (vr br : List Rec) : List (Str × Rec) :=
  br.foldl
    (fun m r =>
      if dictHasKey m r.document then m else dictUpsert m r.document r)
    (vr.foldl (fun m r => dictUpsert m r.document r) [])

/-- merged.values(). -/
def mergedVals (vr br : List Rec) : List Rec := (mergedDict vr br).map (·.2)

/-- ranked = sorted(merged.values(), key=fused score, reverse=True). -/
def rankedRecs (vr br : List Rec) : List Rec :=
  sortDesc (fun r => fscore vr br r.document) (mergedVals vr br)

/-- The fuse-and-rank stage of VectorStoreManager.search (steps 3, 4 and
the final top-k cut). -/
def searchFuse (vr br : List Rec) (k : Nat) : List Rec :=
  (rankedRecs vr br).take k

/-- The 0-based rank of a chunk text in a result list, if present. -/
def rankOf : List Str → Str → Option Nat
  | [], _ => none
  | s :: rest, k => if s = k then some 0 else (rankOf rest k).map (· + 1)

/-- Word characters of the regex class \w (ASCII). -/
def isWordChar (c : Char) : Bool := c.isAlphanum || c = '_'

/-- _tokenize: lowercase, then the maximal runs of word characters. -/
def pyTokenize (text : Str) : List Str :=
  ((text.map Char.toLower).splitOnP (fun c => !isWordChar c)).filter
    (fun t => !t.isEmpty)

/-- The BM25 branch of VectorStoreManager.search.  The BM25Okapi scorer of
the rank_bm25 library is external: getScores models
self._bm25.get_scores(tokenized_query) over the _bm25_docs corpus.  Ranks
all corpus indices by score descending (stable), cuts to fetch_k, keeps the
strictly positive scores. -/
def bm25Branch (bm25docs : List Entry) (getScores : List Str → List ℚ)
    (query : Str) (fetch_k : Nat) : List Rec :=
  if bm25docs.isEmpty then []
  else
    let tq := pyTokenize query
    if tq.isEmpty then []
    else
      let scores := getScores tq
      let ranked :=
        (sortDesc (fun i => scores.getD i 0) (List.range scores.length)).take
          fetch_k
      ranked.filterMap (fun idx =>
        if 0 < scores.getD idx 0 then
          match bm25docs.get? idx with
          | some e => some (Rec.mk e.document e.metadata none)
          | none => none
        else none)

/-- The distance-threshold filter of the vector branch: with no threshold
every candidate passes; a missing distance counts as 0.0. -/
def distFilter (dt : Option ℚ) (rs : List Rec) : List Rec :=
  rs.filter (fun r =>
    match dt with
    | none => true
    | some t => decide (r.distance.getD 0 ≤ t))

/-- VectorStoreManager.search.  self._embed([query]), the Chroma query
(after the halving back-off) and the BM25 scorer are external: embedRes is
the embedding call's outcome; vecRaw / vecFail are the vector query's
candidates or its failure, which the code swallows into an empty semantic
branch.  Only an embedding failure escapes the function. -/
def searchOp (st : VSState) (query : Str) (embedRes : Option PyErr)
    (vecRaw : List Rec) (vecFail : Bool)
    (getScores : List Str → List ℚ) (k fetch_k : Nat) (dt : Option ℚ) :
    Except PyErr (List Rec) :=
  match embedRes with
  | some e => Except.error e
  | none =>
    let vector_results := if vecFail then [] else distFilter dt vecRaw
    let bm25_results := bm25Branch st.bm25docs getScores query fetch_k
    Except.ok (searchFuse vector_results bm25_results k)

/-! ## Neighbor expansion (src/pipeline/knowledge_base.py, retrieve) -/

/-- Ascending insertion for integers. -/
def insertAsc (a : Int) : List Int → List Int
  | [] => [a]
  | b :: l => if a ≤ b then a :: b :: l else b :: insertAsc a l

/-- Ascending sort for integers. -/
def sortAscInt (l : List Int) : List Int := l.foldr insertAsc []

/-- sorted({i for i in indices if i is not None and i >= 0}). -/
def uniqAscInts (l : List Int) : List Int :=
  sortAscInt ((l.filter (fun i => decide (0 ≤ i))).dedup)

/-- VectorStoreManager.get_chunks_by_indices: fetch the existing chunks of
a document by chunk index, in ascending index order (collection.get returns
the existing requested ids in request order). -/
def getChunksByIndices (store : List Entry) (d : Str) (indices : List Int) :
    List Rec :=
  let uniq := uniqAscInts indices
  if uniq.isEmpty then []
  else
    (uniq.map (cid d)).filterMap (fun s =>
      (store.find? (fun e => e.eid == s)).map (fun e =>
        Rec.mk e.document e.metadata none))

/-- Dedup keys of KnowledgeBase.retrieve: (doc_id, chunk_index) when both
resolve, else the literal chunk text paired with none. -/
abbrev KeyT := Str × Option Int

/-- The dedup key of a base hit. -/
def hitKey (r : Rec) : KeyT :=
  match r.metadata.doc_id, r.metadata.chunk_index with
  | some d, some ci => (d, some ci)
  | _, _ => (r.document, none)

/-- The dedup key of a fetched neighbor: the base hit's doc_id with the
neighbor's chunk_index when present, else the neighbor's text. -/
def neighborKey (d : Str) (n : Rec) : KeyT :=
  match n.metadata.chunk_index with
  | some ci => (d, some ci)
  | none => (n.document, none)

/-- The neighbor-append loop of KnowledgeBase.retrieve: emit each unseen
neighbor and record its key. -/
def neighborFold (d : Str) : List Rec → List KeyT → List KeyT × List Rec
  | [], seen => (seen, [])
  | n :: rest, seen =>
    let nk := neighborKey d n
    if nk ∈ seen then neighborFold d rest seen
    else
      let pr := neighborFold d rest (nk :: seen)
      (pr.1, n :: pr.2)

/-- neighborFold instrumented with the emission-time key of each record. -/
def neighborFoldK (d : Str) : List Rec → List KeyT →
    List KeyT × List (KeyT × Rec)
  | [], seen => (seen, [])
  | n :: rest, seen =>
    let nk := neighborKey d n
    if nk ∈ seen then neighborFoldK d rest seen
    else
      let pr := neighborFoldK d rest (nk :: seen)
      (pr.1, (nk, n) :: pr.2)

/-- The expansion loop of KnowledgeBase.retrieve over the fused hits: emit
each unseen hit, then its existing neighbors at indices ci-2, ci-1, ci+1,
ci+2; a hit without resolvable identity is keyed by its text and gets no
neighbor lookup. -/
def expandLoop (store : List Entry) : List Rec → List KeyT → List Rec
  | [], _ => []
  | r :: rest, seen =>
    match r.metadata.doc_id, r.metadata.chunk_index with
    | some d, some ci =>
      let key : KeyT := (d, some ci)
      let emitted := if key ∈ seen then ([] : List Rec) else [r]
      let seen1 := if key ∈ seen then seen else key :: seen
      let neighbors :=
        getChunksByIndices store d [ci - 2, ci - 1, ci + 1, ci + 2]
      let pr := neighborFold d neighbors seen1
      emitted ++ pr.2 ++ expandLoop store rest pr.1
    | _, _ =>
      let key : KeyT := (r.document, none)
      if key ∈ seen then expandLoop store rest seen
      else r :: expandLoop store rest (key :: seen)

/-- expandLoop instrumented with the emission-time key of each record. -/
def expandLoopK (store : List Entry) : List Rec → List KeyT →
    List (KeyT × Rec)
  | [], _ => []
  | r :: rest, seen =>
    match r.metadata.doc_id, r.metadata.chunk_index with
    | some d, some ci =>
      let key : KeyT := (d, some ci)
      let emitted :=
        if key ∈ seen then ([] : List (KeyT × Rec)) else [(key, r)]
      let seen1 := if key ∈ seen then seen else key :: seen
      let neighbors :=
        getChunksByIndices store d [ci - 2, ci - 1, ci + 1, ci + 2]
      let pr := neighborFoldK d neighbors seen1
      emitted ++ pr.2 ++ expandLoopK store rest pr.1
    | _, _ =>
      let key : KeyT := (r.document, none)
      if key ∈ seen then expandLoopK store rest seen
      else (key, r) :: expandLoopK store rest (key :: seen)

/-- The expansion portion of KnowledgeBase.retrieve, applied to the fused
search hits. -/
def expandHits (store : List Entry) (base_results : List Rec) : List Rec :=
  if base_results.isEmpty then [] else expandLoop store base_results []

/-- Concrete fixture: metadata of a document "A". -/
def metaA : Meta := { doc_id := some ['A'] }

/-- Concrete fixture: metadata of a document "B". -/
def metaB : Meta := { doc_id := some ['B'] }

/-- Concrete fixture: a store holding one chunk each of docs "A" and "B",
with the BM25 snapshot in sync. -/
def st0 : VSState :=
  VSState.mk
    [Entry.mk "A_0".data "old".data metaA,
     Entry.mk "B_0".data "other".data metaB]
    [Entry.mk "A_0".data "old".data metaA,
     Entry.mk "B_0".data "other".data metaB]

/-- Concrete fixture: a two-chunk batch. -/
def c3Chunks : List Str := ["x".data, "y".data]

/-- Concrete fixture: a single replicated metadata argument for doc "A". -/
def c3Marg : MetaArg := MetaArg.single metaA

/-- Concrete fixture: re-ingest of doc "A" over st0. -/
def c3Res : VSState × Option PyErr :=
  addOp st0 c3Chunks c3Marg Outcome.ok Outcome.ok

/-- Concrete fixture: per-chunk metadata carrying a bogus caller-supplied
chunk_index. -/
def c10Marg : MetaArg :=
  MetaArg.perChunk
    [{ doc_id := some ['A'], chunk_index := some 7 },
     { doc_id := some ['A'], chunk_index := some 7 }]

/-- Concrete fixture: add with the bogus chunk_index metadata. -/
def c10Res : VSState × Option PyErr :=
  addOp st0 c3Chunks c10Marg Outcome.ok Outcome.ok

/-- Concrete fixture: metadata of a document "C". -/
def metaC : Meta := { doc_id := some ['C'] }

/-- Concrete fixture: ingest of doc "A" into an empty store. -/
def c1St1 : VSState :=
  (addOp (VSState.mk [] []) ["hello world".data] (MetaArg.single metaA)
    Outcome.ok Outcome.ok).1

/-- Concrete fixture: then ingest of doc "B". -/
def c1St2 : VSState :=
  (addOp c1St1 ["foo bar".data] (MetaArg.single metaB)
    Outcome.ok Outcome.ok).1

/-- Concrete fixture: then ingest of doc "C". -/
def c1St3 : VSState :=
  (addOp c1St2 ["baz qux".data] (MetaArg.single metaC)
    Outcome.ok Outcome.ok).1

/-- Concrete fixture: KnowledgeBase.delete_document of doc "A". -/
def c1Deleted : List Str × VSState × Bool :=
  kbDeleteDocument [['A'], ['B'], ['C']] c1St3 ['A']

/-- Concrete fixture: a BM25 scorer outcome giving the first corpus row a
strictly positive score (as BM25Okapi does for a query term unique to one
of three documents). -/
def c1Scores : List Str → List ℚ := fun _ => [1, 0, 0]

/-- Concrete fixture: chunk (B, 0). -/
def metaB0 : Meta := { doc_id := some ['B'], chunk_index := some 0 }

/-- Concrete fixture: chunk (A, 5). -/
def metaA5 : Meta := { doc_id := some ['A'], chunk_index := some 5 }

/-- Concrete fixture: a semantic result list holding chunk (B, 0) with text
"x". -/
def vrX : List Rec := [Rec.mk "x".data metaB0 (some 0)]

/-- Concrete fixture: a lexical result list holding the distinct chunk
(A, 5) with the same text "x". -/
def brX : List Rec := [Rec.mk "x".data metaA5 none]

/-- Concrete fixture: chunk (P, 0). -/
def metaP : Meta := { doc_id := some ['P'], chunk_index := some 0 }

/-- Concrete fixture: chunk (Q, 0). -/
def metaQ : Meta := { doc_id := some ['Q'], chunk_index := some 0 }

/-- Concrete fixture: a semantic list with two distinct texts. -/
def vrW : List Rec :=
  [Rec.mk "p".data metaP (some 0), Rec.mk "q".data metaQ (some (1 / 10))]

/-- Concrete fixture: a lexical list sharing the text "q". -/
def brW : List Rec := [Rec.mk "q".data metaQ none]

/-! ## Context assembly and ask (src/pipeline/rag_pipeline.py) -/

/-- Python a or b on optional strings, where the empty string is falsy. -/
def orStr (a b : Option Str) : Option Str :=
  match a with
  | some s => if s.isEmpty then b else some s
  | none => b

/-- Python a or b on optional ints, where 0 is falsy. -/
def orInt (a b : Option Int) : Option Int :=
  match a with
  | some n => if n = 0 then b else some n
  | none => b

/-- One citation block of RAGPipeline._build_context, verbatim. -/
def contextBlock (r : Rec) : Str :=
  let meta := r.metadata
  let document_name :=
    (orStr meta.document_name
      (orStr meta.file_name (some "Unknown document".data))).getD []
  let page_number := orInt meta.page_number meta.page
  let page_line :=
    match meta.page_start, meta.page_end with
    | some a, some b =>
        "Pages: ".data ++ (toString a).data ++ '-' :: (toString b).data
    | _, _ =>
      match page_number with
      | some n => "Page: ".data ++ (toString n).data
      | none => "Page: Unknown".data
  "Document: ".data ++ document_name ++ '\n' :: page_line ++
    '\n' :: "Text: \"".data ++ r.document ++ ['"']

/-- RAGPipeline._build_context: blocks joined by one blank line. -/
def buildContext (results : List Rec) : Str :=
  List.intercalate ('\n' :: '\n' :: []) (results.map contextBlock)

/-- RAGPipeline.ask: the retrieval outcome and the LLM generate call are
external; a failure in either propagates unmodified to the caller. -/
def askOp (retrieveRes : Except PyErr (List Rec)) (k : Nat)
    (gen : Str → Except PyErr Str) : Except PyErr Str :=
  match retrieveRes with
  | Except.error e => Except.error e
  | Except.ok results =>
    if results.isEmpty then
      Except.ok
        "No relevant documents found. Please ingest documents first.".data
    else gen (buildContext (results.take k))

/-! ## Helper theorems: strings and stable sorting -/

theorem dropWhile_shape (p : Char → Bool) (l : Str) :
    l.dropWhile p = [] ∨ ∃ a t, l.dropWhile p = a :: t ∧ p a = false := by
  induction l with
  | nil => left; rfl
  | cons c cs ih =>
    by_cases h : p c
    · simpa [List.dropWhile_cons, h] using ih
    · right; exact ⟨c, cs, by simp [List.dropWhile_cons, h], by simp [h]⟩

theorem dropWhile_dropWhile (p : Char → Bool) (l : Str) :
    (l.dropWhile p).dropWhile p = l.dropWhile p := by
  rcases dropWhile_shape p l with h | ⟨a, t, h, ha⟩
  · simp [h]
  · simp [h, List.dropWhile_cons, ha]

theorem pyStrip_length_le (s : Str) : (pyStrip s).length ≤ s.length := by
  unfold pyStrip
  calc ((s.dropWhile pyIsSpace).reverse.dropWhile pyIsSpace).reverse.length
      = ((s.dropWhile pyIsSpace).reverse.dropWhile pyIsSpace).length := by
        simp
    _ ≤ (s.dropWhile pyIsSpace).reverse.length :=
        (List.dropWhile_sublist pyIsSpace).length_le
    _ = (s.dropWhile pyIsSpace).length := by simp
    _ ≤ s.length := (List.dropWhile_sublist pyIsSpace).length_le

theorem pyStrip_idem (s : Str) : pyStrip (pyStrip s) = pyStrip s := by
  unfold pyStrip
  set u := s.dropWhile pyIsSpace with hu
  set v := u.reverse.dropWhile pyIsSpace with hv
  have hpre : v.reverse <+: u := by
    have hsuf : v <:+ u.reverse := by
      rw [hv]; exact List.dropWhile_suffix pyIsSpace
    have h2 := List.reverse_prefix.mpr hsuf
    simpa using h2
  have h1 : v.reverse.dropWhile pyIsSpace = v.reverse := by
    rcases hvr : v.reverse with _ | ⟨a, t⟩
    · simp
    · have hau : ∃ r, u = a :: r := by
        rcases hpre with ⟨r, hr⟩
        exact ⟨t ++ r, by rw [← hr, hvr]; simp⟩
      rcases hau with ⟨r, hr⟩
      have ha : pyIsSpace a = false := by
        rcases dropWhile_shape pyIsSpace s with h | ⟨b, t2, h, hb⟩
        · rw [← hu] at h; rw [h] at hr; cases hr
        · rw [← hu] at h; rw [h] at hr
          cases hr; exact hb
      simp [List.dropWhile_cons, ha]
  rw [h1]
  have h2 : v.reverse.reverse.dropWhile pyIsSpace = v := by
    rw [List.reverse_reverse, hv]
    exact dropWhile_dropWhile pyIsSpace u.reverse
  rw [h2]

theorem insertDesc_perm (key : α → ℚ) (a : α) (l : List α) :
    List.Perm (insertDesc key a l) (a :: l) := by
  induction l with
  | nil => exact List.Perm.refl _
  | cons b m ih =>
    by_cases h : key b < key a
    · simp only [insertDesc, if_pos h]
      exact List.Perm.refl _
    · simp only [insertDesc, if_neg h]
      exact (ih.cons b).trans (List.Perm.swap a b m)

theorem mem_insertDesc (key : α → ℚ) (a x : α) (l : List α) :
    x ∈ insertDesc key a l ↔ x = a ∨ x ∈ l := by
  rw [(insertDesc_perm key a l).mem_iff]; simp

theorem sortDesc_eq_append (key : α → ℚ) (l : List α) (c : α) :
    sortDesc key (l ++ [c]) = insertDesc key c (sortDesc key l) := by
  simp [sortDesc, List.foldl_append]

theorem sortDesc_perm (key : α → ℚ) (l : List α) :
    List.Perm (sortDesc key l) l := by
  induction l using List.reverseRecOn with
  | nil => exact List.Perm.refl _
  | append_singleton m c ih =>
    rw [sortDesc_eq_append]
    exact ((insertDesc_perm key c _).trans (ih.cons c)).trans
      (List.perm_append_singleton c m).symm

theorem insertDesc_sorted (key : α → ℚ) (a : α) (l : List α)
    (h : l.Pairwise (fun x y => key y ≤ key x)) :
    (insertDesc key a l).Pairwise (fun x y => key y ≤ key x) := by
  induction l with
  | nil => simp [insertDesc]
  | cons b m ih =>
    rcases List.pairwise_cons.mp h with ⟨hb, hm⟩
    by_cases hba : key b < key a
    · simp only [insertDesc, if_pos hba]
      refine List.Pairwise.cons ?_ (List.Pairwise.cons hb hm)
      intro x hx
      rcases List.mem_cons.mp hx with rfl | hx
      · exact le_of_lt hba
      · exact le_trans (hb x hx) (le_of_lt hba)
    · simp only [insertDesc, if_neg hba]
      refine List.Pairwise.cons ?_ (ih hm)
      intro x hx
      rcases (mem_insertDesc key a x m).mp hx with rfl | hx
      · exact not_lt.mp hba
      · exact hb x hx

theorem sortDesc_sorted (key : α → ℚ) (l : List α) :
    (sortDesc key l).Pairwise (fun x y => key y ≤ key x) := by
  induction l using List.reverseRecOn with
  | nil => simp [sortDesc]
  | append_singleton m c ih =>
    rw [sortDesc_eq_append]
    exact insertDesc_sorted key c _ ih

theorem insertDesc_decomp (key : α → ℚ) (a : α) (l : List α) :
    ∃ l1 l2, l = l1 ++ l2 ∧ insertDesc key a l = l1 ++ a :: l2 ∧
      (∀ x ∈ l1, ¬ key x < key a) ∧
      (∀ h t, l2 = h :: t → key h < key a) := by
  induction l with
  | nil =>
    exact ⟨[], [], rfl, rfl, by simp, by intro h t ht; cases ht⟩
  | cons b m ih =>
    by_cases hba : key b < key a
    · refine ⟨[], b :: m, rfl, by simp [insertDesc, hba], by simp, ?_⟩
      intro h t ht
      cases ht; exact hba
    · rcases ih with ⟨l1, l2, he, hi, h1, h2⟩
      refine ⟨b :: l1, l2, by rw [List.cons_append, ← he], ?_, ?_, h2⟩
      · simp only [insertDesc, if_neg hba, hi]; rfl
      · intro x hx
        rcases List.mem_cons.mp hx with rfl | hx
        · exact hba
        · exact h1 x hx

theorem sublist_insertDesc (key : α → ℚ) (a : α) {s l : List α}
    (h : s.Sublist l) : s.Sublist (insertDesc key a l) := by
  rcases insertDesc_decomp key a l with ⟨l1, l2, he, hi, -, -⟩
  rw [hi]
  refine h.trans ?_
  rw [he]
  exact List.Sublist.append_left (List.sublist_cons_self a l2) l1

theorem pair_sublist_sortDesc (key : α → ℚ) {a b : α} {l : List α}
    (hk : key b ≤ key a) (h : List.Sublist [a, b] l) :
    List.Sublist [a, b] (sortDesc key l) := by
  induction l using List.reverseRecOn with
  | nil => cases h
  | append_singleton m c ih =>
    rw [sortDesc_eq_append]
    rcases List.sublist_append_iff.mp h with ⟨s1, s2, hsplit, hs1, hs2⟩
    rcases s2 with _ | ⟨x, s2t⟩
    · have hs : s1 = [a, b] := by simpa using hsplit.symm
      subst hs
      exact sublist_insertDesc key c (ih hs1)
    · rcases s2t with _ | ⟨y, s2tt⟩
      · have hx : x = c := by
          rcases List.sublist_singleton.mp hs2 with h1 | h1
          · cases h1
          · injection h1 with h2 h3
        rw [hx] at hsplit
        have hs1a : s1 = [a] ∧ b = c := by
          have hq : s1 ++ [c] = [a, b] := hsplit.symm
          rcases s1 with _ | ⟨p, s1t⟩
          · simp at hq
          · rcases s1t with _ | ⟨q, s1tt⟩
            · injection hq with h2 h3
              injection h3 with h4 h5
              exact ⟨by rw [h2], h4.symm⟩
            · exfalso
              have hL := congrArg List.length hq
              simp only [List.length_append, List.length_cons,
                List.length_nil] at hL
              omega
        rcases hs1a with ⟨rfl, hb⟩
        have hcb : c = b := hb.symm
        subst hcb
        have ham : a ∈ sortDesc key m := by
          rw [(sortDesc_perm key m).mem_iff]
          simpa using hs1
        rcases insertDesc_decomp key c (sortDesc key m) with
          ⟨l1, l2, he, hi, hl1, hl2⟩
        rw [hi]
        have hal1 : a ∈ l1 := by
          rw [he] at ham
          rcases List.mem_append.mp ham with h1 | h1
          · exact h1
          · exfalso
            rcases l2 with _ | ⟨hd, tl⟩
            · simp at h1
            · have hhd : key hd < key c := hl2 hd tl rfl
              have hsorted := sortDesc_sorted key m
              rw [he] at hsorted
              have hrest := (List.pairwise_append.mp hsorted).2.1
              have hle : key a ≤ key hd := by
                rcases List.mem_cons.mp h1 with rfl | h1
                · exact le_refl _
                · exact (List.pairwise_cons.mp hrest).1 a h1
              exact lt_irrefl (key a)
                (lt_of_le_of_lt hle (lt_of_lt_of_le hhd hk))
        have hsa : List.Sublist [a] l1 := List.singleton_sublist.mpr hal1
        have hsc : List.Sublist [c] (c :: l2) := by simp
        simpa using List.Sublist.append hsa hsc
      · have hL := hs2.length_le
        simp at hL

/-! ## Helper theorems: the chunker -/

theorem paraSplitAux_noBreak (fuel : Nat) :
    ∀ rest acc, rest.length < fuel → hasParaBreak rest = false →
      paraSplitAux fuel acc rest = [acc.reverse ++ rest] := by
  induction fuel with
  | zero => intro rest acc h _; omega
  | succ n ih =>
    intro rest acc hlen hnb
    match rest with
    | [] => simp [paraSplitAux]
    | c :: cs =>
      have hb : breakHere c cs = false ∧ hasParaBreak cs = false := by
        simpa [hasParaBreak, Bool.or_eq_false_iff] using hnb
      simp only [paraSplitAux, hb.1, Bool.false_eq_true, if_false]
      rw [ih cs (c :: acc) (by simp at hlen; omega) hb.2]
      simp

theorem splitParas_noBreak (p : Str) (hnz : pyStrip p ≠ [])
    (hs : pyStrip p = p) (hnb : hasParaBreak p = false) :
    splitParas p = [p] := by
  unfold splitParas
  rw [paraSplitAux_noBreak (p.length + 1) p [] (by omega) hnb]
  simp only [List.reverse_nil, List.nil_append, List.map_cons,
    List.map_nil, hs]
  have hpne : p ≠ [] := by rw [hs] at hnz; exact hnz
  have hie : p.isEmpty = false := by
    cases p with
    | nil => exact absurd rfl hpne
    | cons a t => rfl
  simp [List.filter, hie]

theorem lastSpaceIdx_none (l : Str) : lastSpaceIdx l = none ↔ ' ' ∉ l := by
  induction l with
  | nil => simp [lastSpaceIdx]
  | cons c cs ih =>
    simp only [lastSpaceIdx]
    cases hcs : lastSpaceIdx cs with
    | some j =>
      constructor
      · intro h; cases h
      · intro h
        exfalso
        have hmem : ' ' ∈ cs := by
          by_contra hn
          have hnone := ih.mpr hn
          rw [hnone] at hcs; cases hcs
        exact h (List.mem_cons_of_mem c hmem)
    | none =>
      have hns : ' ' ∉ cs := ih.mp hcs
      by_cases hc : c = ' '
      · subst hc; simp
      · rw [if_neg hc]
        constructor
        · intro _ h
          rcases List.mem_cons.mp h with h1 | h1
          · exact hc h1.symm
          · exact hns h1
        · intro _; rfl

theorem lastSpaceIdx_spec (l : Str) :
    ∀ i, lastSpaceIdx l = some i →
      l[i]? = some ' ' ∧ ∀ j, i < j → l[j]? ≠ some ' ' := by
  induction l with
  | nil => intro i h; cases h
  | cons c cs ih =>
    intro i h
    simp only [lastSpaceIdx] at h
    cases hcs : lastSpaceIdx cs with
    | some j =>
      rw [hcs] at h
      injection h with h
      subst h
      rcases ih j hcs with ⟨h1, h2⟩
      refine ⟨by simpa using h1, ?_⟩
      intro k hk
      match k with
      | 0 => omega
      | k' + 1 =>
        simp only [List.getElem?_cons_succ]
        exact h2 k' (by omega)
    | none =>
      rw [hcs] at h
      by_cases hc : c = ' '
      · rw [if_pos hc] at h
        injection h with h
        subst h
        have hns : ' ' ∉ cs := (lastSpaceIdx_none cs).mp hcs
        refine ⟨by simp [hc], ?_⟩
        intro k hk
        match k with
        | 0 => omega
        | k' + 1 =>
          simp only [List.getElem?_cons_succ]
          intro hcon
          exact hns (List.getElem?_mem hcon)
      · rw [if_neg hc] at h; cases h

theorem firstSpaceIdx_none (l : Str) : firstSpaceIdx l = none ↔ ' ' ∉ l := by
  induction l with
  | nil => simp [firstSpaceIdx]
  | cons c cs ih =>
    by_cases hc : c = ' '
    · subst hc; simp [firstSpaceIdx]
    · simp only [firstSpaceIdx, if_neg hc]
      constructor
      · intro h hmem
        rcases List.mem_cons.mp hmem with h1 | h1
        · exact hc h1.symm
        · refine (ih.mp ?_) h1
          cases hcs : firstSpaceIdx cs with
          | some j => rw [hcs] at h; simp at h
          | none => rfl
      · intro h
        have hns : ' ' ∉ cs := fun hm => h (List.mem_cons_of_mem c hm)
        rw [ih.mpr hns]; rfl

theorem firstSpaceIdx_spec (l : Str) :
    ∀ i, firstSpaceIdx l = some i →
      l[i]? = some ' ' ∧ ∀ j, j < i → l[j]? ≠ some ' ' := by
  induction l with
  | nil => intro i h; cases h
  | cons c cs ih =>
    intro i h
    by_cases hc : c = ' '
    · rw [firstSpaceIdx, if_pos hc] at h
      injection h with h; subst h
      exact ⟨by simp [hc], by intro j hj; omega⟩
    · rw [firstSpaceIdx, if_neg hc] at h
      cases hcs : firstSpaceIdx cs with
      | some j =>
        rw [hcs] at h
        simp only [Option.map_some'] at h
        injection h with h; subst h
        rcases ih j hcs with ⟨h1, h2⟩
        refine ⟨by simpa using h1, ?_⟩
        intro k hk
        match k with
        | 0 =>
          simp only [List.getElem?_cons_zero]
          intro hcon
          injection hcon with hcon
          exact hc hcon
        | k' + 1 =>
          simp only [List.getElem?_cons_succ]
          exact h2 k' (by omega)
      | none => rw [hcs] at h; cases h

/-! ## Helper theorems: the vector-store lifecycle -/

theorem prefixOf_self_append (a r : Str) : a.isPrefixOf (a ++ r) = true := by
  exact List.isPrefixOf_iff_prefix.mpr (List.prefix_append a r)

theorem cid_marker_isPrefixOf (d : Str) (i : Int) :
    ((d ++ ['_']).isPrefixOf (cid d i)) = true := by
  have h : cid d i = (d ++ ['_']) ++ (toString i).data := by simp [cid]
  rw [h]
  exact prefixOf_self_append _ _

theorem filter_pref_delByDocId (entries : List Entry) (d : Str) :
    (delByDocId entries d).filter
      (fun e => (d ++ ['_']).isPrefixOf e.eid) = [] := by
  unfold delByDocId
  rw [List.filter_filter]
  apply List.filter_eq_nil_iff.mpr
  intro e he
  cases h : (d ++ ['_']).isPrefixOf e.eid <;> simp [h]

theorem filter_pref_mkBatch (d : Str) (chunks : List Str) (ms : List Meta) :
    (mkBatch d chunks ms).filter
      (fun e => (d ++ ['_']).isPrefixOf e.eid) = mkBatch d chunks ms := by
  apply List.filter_eq_self.mpr
  intro e he
  unfold mkBatch at he
  rcases List.mem_map.mp he with ⟨i, hi, rfl⟩
  exact cid_marker_isPrefixOf d (Int.ofNat i)

theorem mkBatch_ids (d : Str) (chunks : List Str) (ms : List Meta) :
    (mkBatch d chunks ms).map (fun e => e.eid) =
      (List.range chunks.length).map (fun i => cid d (Int.ofNat i)) := by
  unfold mkBatch
  rw [List.map_map]
  rfl

theorem mkBatch_getD (d : Str) (chunks : List Str) (ms : List Meta)
    (i : Nat) (hi : i < chunks.length) :
    (mkBatch d chunks ms).getD i (Entry.mk [] [] {}) =
      Entry.mk (cid d (Int.ofNat i)) (chunks.getD i []) (ms.getD i {}) := by
  unfold mkBatch
  rw [List.getD_eq_getElem?_getD, List.getElem?_map, List.getElem?_range hi]
  rfl

theorem computeMetadatas_chunk_index (marg : MetaArg) (n i : Nat)
    (hi : i < n) :
    ((computeMetadatas marg n).getD i {}).chunk_index = some (i : Int) := by
  have hr : (List.range n)[i]? = some i := List.getElem?_range hi
  cases marg with
  | single md =>
    simp only [computeMetadatas, List.getD_eq_getElem?_getD,
      List.getElem?_map, hr, Option.map_some', Option.getD_some]
    rfl
  | perChunk ms =>
    by_cases h : ms.length = n
    · simp only [computeMetadatas, if_pos h, List.getD_eq_getElem?_getD,
        List.getElem?_map, List.getElem?_enum]
      cases hm : ms[i]? with
      | some m => rfl
      | none =>
        exfalso
        rw [List.getElem?_eq_none_iff] at hm
        omega
    · simp only [computeMetadatas, if_neg h, List.getD_eq_getElem?_getD,
        List.getElem?_map, hr, Option.map_some', Option.getD_some]
      rfl
  | noMeta =>
    simp only [computeMetadatas, List.getD_eq_getElem?_getD,
      List.getElem?_map, hr, Option.map_some', Option.getD_some]
    rfl

theorem addOp_success_shape (st : VSState) (chunks : List Str)
    (marg : MetaArg) (a1 a2 : Outcome) (st' : VSState) (d : Str)
    (hne : chunks.isEmpty = false)
    (hd : docIdOfMetas (computeMetadatas marg chunks.length) = some d)
    (hok : addOp st chunks marg a1 a2 = (st', none)) :
    st'.entries = delByDocId st.entries d ++
        mkBatch d chunks (computeMetadatas marg chunks.length) ∨
      st'.entries =
        mkBatch d chunks (computeMetadatas marg chunks.length) := by
  unfold addOp at hok
  simp only [hne, Bool.false_eq_true, if_false, hd] at hok
  cases a1 with
  | ok =>
    left
    injection hok with h1 h2
    rw [← h1]
  | fail e =>
    cases e with
    | stopIter =>
      cases a2 with
      | ok =>
        right
        injection hok with h1 h2
        rw [← h1]
      | fail e2 =>
        injection hok with h1 h2
        cases h2
    | valueErr =>
      injection hok with h1 h2
      cases h2
    | upstream n =>
      injection hok with h1 h2
      cases h2

/-! ## Helper theorems: fusion dictionaries -/

theorem dictGetD_upsert (d : List (Str × α)) (k k2 : Str) (v v0 : α) :
    dictGetD (dictUpsert d k v) k2 v0 =
      if k = k2 then v else dictGetD d k2 v0 := by
  induction d with
  | nil => simp [dictUpsert, dictGetD]
  | cons p rest ih =>
    by_cases hp : p.1 = k
    · subst hp
      by_cases h2 : p.1 = k2 <;> simp [dictUpsert, dictGetD, h2]
    · by_cases h2 : k = k2
      · subst h2
        simp [dictUpsert, dictGetD, hp, ih]
      · simp [dictUpsert, dictGetD, hp, h2, ih]

theorem rankOf_eq_none (l : List Str) (k : Str) :
    rankOf l k = none ↔ k ∉ l := by
  induction l with
  | nil => simp [rankOf]
  | cons s rest ih =>
    by_cases h : s = k
    · subst h; simp [rankOf]
    · simp [rankOf, h, ih, Ne.symm h]

theorem rrfPass_getD (items : List Rec) :
    ∀ (start : Nat) (d : List (Str × ℚ)) (k : Str),
      (items.map (fun r => r.document)).Nodup →
      dictGetD (rrfPass start items d) k 0 =
        dictGetD d k 0 +
          (match rankOf (items.map (fun r => r.document)) k with
           | some i => 1 / (60 + ((start + i : Nat) : ℚ))
           | none => 0) := by
  induction items with
  | nil => intro start d k _; simp [rrfPass, rankOf]
  | cons r rest ih =>
    intro start d k hnd
    rw [List.map_cons] at hnd
    rcases List.nodup_cons.mp hnd with ⟨hhd, htl⟩
    by_cases hk : r.document = k
    · subst hk
      have hnone : rankOf (rest.map (fun r2 => r2.document)) r.document
          = none := (rankOf_eq_none _ _).mpr hhd
      simp only [rrfPass, List.map_cons]
      rw [ih (start + 1) _ r.document htl]
      rw [hnone]
      simp only [rankOf, if_pos rfl]
      rw [dictGetD_upsert]
      simp
    · simp only [rrfPass, List.map_cons]
      rw [ih (start + 1) _ k htl]
      rw [dictGetD_upsert]
      rw [if_neg hk]
      simp only [rankOf, if_neg hk]
      cases hro : rankOf (rest.map (fun r2 => r2.document)) k with
      | none => simp
      | some i =>
        simp only [Option.map_some']
        have harg : ((start + 1 + i : Nat) : ℚ) = ((start + (i + 1) : Nat) : ℚ) := by
          congr 1
          omega
        rw [harg]

theorem fscore_eq (vr br : List Rec) (k : Str)
    (hv : (vr.map (fun r => r.document)).Nodup)
    (hb : (br.map (fun r => r.document)).Nodup) :
    fscore vr br k =
      (match rankOf (vr.map (fun r => r.document)) k with
       | some i => 1 / (60 + (i : ℚ))
       | none => 0) +
      (match rankOf (br.map (fun r => r.document)) k with
       | some i => 1 / (60 + (i : ℚ))
       | none => 0) := by
  unfold fscore fusionScores
  rw [rrfPass_getD br 0 _ k hb, rrfPass_getD vr 0 [] k hv]
  simp only [dictGetD]
  cases hrv : rankOf (vr.map (fun r => r.document)) k with
  | none =>
    cases hrb : rankOf (br.map (fun r => r.document)) k with
    | none => simp
    | some j => simp
  | some i =>
    cases hrb : rankOf (br.map (fun r => r.document)) k with
    | none => simp
    | some j => simp

theorem dictHasKey_iff (d : List (Str × α)) (k : Str) :
    dictHasKey d k = true ↔ k ∈ d.map (fun p => p.1) := by
  induction d with
  | nil => simp [dictHasKey]
  | cons p rest ih =>
    simp only [dictHasKey, List.map_cons, List.mem_cons, Bool.or_eq_true,
      beq_iff_eq, ih]
    constructor
    · rintro (h | h)
      · exact Or.inl h.symm
      · exact Or.inr h
    · rintro (h | h)
      · exact Or.inl h.symm
      · exact Or.inr h

theorem dictHasKey_append (d1 d2 : List (Str × α)) (k : Str) :
    dictHasKey (d1 ++ d2) k = (dictHasKey d1 k || dictHasKey d2 k) := by
  induction d1 with
  | nil => simp [dictHasKey]
  | cons p rest ih => simp [dictHasKey, ih, Bool.or_assoc]

theorem dictUpsert_fresh (d : List (Str × α)) (k : Str) (v : α)
    (h : dictHasKey d k = false) : dictUpsert d k v = d ++ [(k, v)] := by
  induction d with
  | nil => rfl
  | cons p rest ih =>
    simp only [dictHasKey, Bool.or_eq_false_iff] at h
    have hne : p.1 ≠ k := by simpa using h.1
    simp [dictUpsert, hne, ih h.2]

theorem foldl_upsert_fresh (vr : List Rec) :
    ∀ (m : List (Str × Rec)),
      (vr.map (fun r => r.document)).Nodup →
      (∀ r ∈ vr, dictHasKey m r.document = false) →
      vr.foldl (fun m2 r => dictUpsert m2 r.document r) m =
        m ++ vr.map (fun r => (r.document, r)) := by
  induction vr with
  | nil => intro m _ _; simp
  | cons r rest ih =>
    intro m hnd hfresh
    rw [List.map_cons] at hnd
    rcases List.nodup_cons.mp hnd with ⟨hhd, htl⟩
    simp only [List.foldl_cons]
    rw [dictUpsert_fresh m r.document r (hfresh r (by simp))]
    rw [ih (m ++ [(r.document, r)]) htl ?_]
    · simp
    · intro r2 hr2
      rw [dictHasKey_append]
      have h1 : dictHasKey m r2.document = false :=
        hfresh r2 (List.mem_cons_of_mem r hr2)
      have h2 : r.document ≠ r2.document := by
        intro hcon
        exact hhd (by
          rw [hcon]
          exact List.mem_map_of_mem (fun r3 => r3.document) hr2)
      simp [h1, dictHasKey, h2]

theorem foldl_merge_br (br : List Rec) :
    ∀ (m : List (Str × Rec)),
      (br.map (fun r => r.document)).Nodup →
      br.foldl (fun m2 r => if dictHasKey m2 r.document then m2
          else dictUpsert m2 r.document r) m =
        m ++ (br.filter (fun r => !(dictHasKey m r.document))).map
          (fun r => (r.document, r)) := by
  induction br with
  | nil => intro m _; simp
  | cons r rest ih =>
    intro m hnd
    rw [List.map_cons] at hnd
    rcases List.nodup_cons.mp hnd with ⟨hhd, htl⟩
    simp only [List.foldl_cons]
    by_cases hk : dictHasKey m r.document = true
    · rw [if_pos hk, ih m htl]
      simp [List.filter, hk]
    · have hk2 : dictHasKey m r.document = false := by
        cases h : dictHasKey m r.document
        · rfl
        · exact absurd h hk
      rw [if_neg hk, dictUpsert_fresh m r.document r hk2]
      rw [ih (m ++ [(r.document, r)]) htl]
      have hfc : rest.filter
            (fun r2 => !(dictHasKey (m ++ [(r.document, r)]) r2.document)) =
          rest.filter (fun r2 => !(dictHasKey m r2.document)) := by
        apply List.filter_congr
        intro r2 hr2
        rw [dictHasKey_append]
        have h2 : r.document ≠ r2.document := by
          intro hcon
          exact hhd (by
            rw [hcon]
            exact List.mem_map_of_mem (fun r3 => r3.document) hr2)
        simp [dictHasKey, h2]
      rw [hfc]
      simp [List.filter, hk2]

theorem mergedVals_eq (vr br : List Rec)
    (hv : (vr.map (fun r => r.document)).Nodup)
    (hb : (br.map (fun r => r.document)).Nodup) :
    mergedVals vr br = vr ++ br.filter
      (fun r => !((vr.map (fun r2 => r2.document)).contains r.document)) := by
  unfold mergedVals mergedDict
  rw [foldl_upsert_fresh vr [] hv (by intro r _; rfl)]
  rw [List.nil_append]
  rw [foldl_merge_br br _ hb]
  have hkeys : ∀ k, dictHasKey
      (vr.map (fun r => (r.document, r))) k =
      (vr.map (fun r2 => r2.document)).contains k := by
    intro k
    have h1 : dictHasKey (vr.map (fun r => (r.document, r))) k = true ↔
        k ∈ vr.map (fun r2 => r2.document) := by
      rw [dictHasKey_iff, List.map_map]
      exact Iff.rfl
    have h2 : (vr.map (fun r2 => r2.document)).contains k = true ↔
        k ∈ vr.map (fun r2 => r2.document) := List.elem_iff
    exact Bool.eq_iff_iff.mpr (h1.trans h2.symm)
  have hfc : br.filter
        (fun r => !(dictHasKey (vr.map (fun r2 => (r2.document, r2)))
          r.document)) =
      br.filter
        (fun r => !((vr.map (fun r2 => r2.document)).contains r.document)) := by
    apply List.filter_congr
    intro r _
    rw [hkeys]
  rw [hfc]
  rw [List.map_append, List.map_map, List.map_map]
  have hmapid : ∀ (l : List Rec),
      l.map ((fun x => (x : Str × Rec).2) ∘ fun r => (r.document, r)) = l := by
    intro l
    induction l with
    | nil => rfl
    | cons a t iht => simp only [List.map_cons, iht]; rfl
  rw [hmapid, hmapid]

/-! ## Helper theorems: neighbor expansion -/

theorem neighborFoldK_spec (d : Str) (ns : List Rec) :
    ∀ seen : List KeyT,
      (((neighborFoldK d ns seen).2.map Prod.fst).Nodup ∧
        (∀ k ∈ (neighborFoldK d ns seen).2.map Prod.fst, k ∉ seen)) ∧
      (∀ k, k ∈ (neighborFoldK d ns seen).1 ↔
        k ∈ seen ∨ k ∈ (neighborFoldK d ns seen).2.map Prod.fst) := by
  induction ns with
  | nil =>
    intro seen
    refine ⟨⟨?_, ?_⟩, ?_⟩ <;> simp [neighborFoldK]
  | cons n rest ih =>
    intro seen
    by_cases hk : neighborKey d n ∈ seen
    · simp only [neighborFoldK, if_pos hk]
      exact ih seen
    · simp only [neighborFoldK, if_neg hk, List.map_cons]
      rcases ih (neighborKey d n :: seen) with ⟨⟨hnd, hout⟩, hseen⟩
      refine ⟨⟨?_, ?_⟩, ?_⟩
      · refine List.nodup_cons.mpr ⟨?_, hnd⟩
        intro hmem
        exact (hout _ hmem) (by simp)
      · intro k hkm
        rcases List.mem_cons.mp hkm with rfl | hkm
        · exact hk
        · intro hks
          exact (hout k hkm) (List.mem_cons_of_mem _ hks)
      · intro k
        rw [hseen k]
        constructor
        · rintro (hks | hko)
          · rcases List.mem_cons.mp hks with rfl | hks
            · exact Or.inr (List.mem_cons_self _ _)
            · exact Or.inl hks
          · exact Or.inr (List.mem_cons_of_mem _ hko)
        · rintro (hks | hko)
          · exact Or.inl (List.mem_cons_of_mem _ hks)
          · rcases List.mem_cons.mp hko with rfl | hko
            · exact Or.inl (List.mem_cons_self _ _)
            · exact Or.inr hko

theorem expandLoopK_spec (store : List Entry) (base : List Rec) :
    ∀ seen : List KeyT,
      ((expandLoopK store base seen).map Prod.fst).Nodup ∧
      (∀ k ∈ (expandLoopK store base seen).map Prod.fst, k ∉ seen) := by
  induction base with
  | nil => intro seen; simp [expandLoopK]
  | cons r rest ih =>
    intro seen
    rcases hdoc : r.metadata.doc_id with _ | dval
    all_goals rcases hci : r.metadata.chunk_index with _ | cival
    case none.none | none.some | some.none =>
      -- no resolvable identity: text key
      all_goals (
        simp only [expandLoopK, hdoc, hci]
        by_cases hk : ((r.document, none) : KeyT) ∈ seen
        · rw [if_pos hk]
          exact ih seen
        · rw [if_neg hk]
          simp only [List.map_cons]
          rcases ih (((r.document, none) : KeyT) :: seen) with ⟨hnd, hout⟩
          refine ⟨List.nodup_cons.mpr ⟨fun hmem => (hout _ hmem) (by simp),
            hnd⟩, ?_⟩
          intro k hkm
          rcases List.mem_cons.mp hkm with rfl | hkm
          · exact hk
          · exact fun hks => (hout k hkm) (List.mem_cons_of_mem _ hks))
    case some.some =>
      simp only [expandLoopK, hdoc, hci]
      set key : KeyT := (dval, some cival) with hkey
      set seen1 := if key ∈ seen then seen else key :: seen with hseen1
      set neighbors :=
        getChunksByIndices store dval
          [cival - 2, cival - 1, cival + 1, cival + 2] with hnb
      rcases neighborFoldK_spec dval neighbors seen1 with ⟨⟨hnnd, hnout⟩, hnseen⟩
      rcases ih (neighborFoldK dval neighbors seen1).1 with ⟨hrnd, hrout⟩
      have hsub : ∀ k, k ∈ seen1 → k ∈ (neighborFoldK dval neighbors seen1).1 :=
        fun k hks => (hnseen k).mpr (Or.inl hks)
      have hseensub : ∀ k, k ∈ seen → k ∈ seen1 := by
        intro k hks
        rw [hseen1]
        by_cases h : key ∈ seen
        · rwa [if_pos h]
        · rw [if_neg h]; exact List.mem_cons_of_mem _ hks
      have hkeyseen1 : key ∈ seen1 := by
        rw [hseen1]
        by_cases h : key ∈ seen
        · rwa [if_pos h]
        · rw [if_neg h]; simp
      constructor
      · rw [List.map_append, List.map_append]
        rw [List.nodup_append, List.nodup_append]
        refine ⟨⟨?_, hnnd, ?_⟩, hrnd, ?_⟩
        · by_cases h : key ∈ seen <;>
            simp [hseen1, h]
        · intro k hkm
          by_cases h : key ∈ seen
          · simp [h] at hkm
          · simp only [h, if_neg, if_false, reduceIte, List.map_cons,
              List.map_nil] at hkm
            rcases List.mem_cons.mp hkm with rfl | hkm2
            · exact fun hmem => (hnout _ hmem) hkeyseen1
            · simp at hkm2
        · intro k hkm
          rw [List.mem_append] at hkm
          intro hkr
          have hknot := hrout k hkr
          rcases hkm with hkm | hkm
          · -- k among emitted: k = key (when fresh)
            by_cases h : key ∈ seen
            · simp [h] at hkm
            · simp only [h, if_neg, if_false, reduceIte, List.map_cons,
                List.map_nil] at hkm
              rcases List.mem_cons.mp hkm with rfl | hkm2
              · exact hknot (hsub _ hkeyseen1)
              · simp at hkm2
          · exact hknot ((hnseen k).mpr (Or.inr hkm))
      · intro k hkm
        rw [List.map_append, List.map_append, List.mem_append] at hkm
        rcases hkm with hkm | hkr
        · rw [List.mem_append] at hkm
          rcases hkm with hkm | hkm
          · by_cases h : key ∈ seen
            · simp [h] at hkm
            · simp only [h, if_neg, if_false, reduceIte, List.map_cons,
                List.map_nil] at hkm
              rcases List.mem_cons.mp hkm with rfl | hkm2
              · exact h
              · simp at hkm2
          · exact fun hks => (hnout k hkm) (hseensub k hks)
        · exact fun hks =>
            (hrout k hkr) (hsub k (hseensub k hks))

theorem neighborFold_eq_mapK (d : Str) (ns : List Rec) :
    ∀ seen, (neighborFold d ns seen).1 = (neighborFoldK d ns seen).1 ∧
      (neighborFold d ns seen).2 =
        (neighborFoldK d ns seen).2.map Prod.snd := by
  induction ns with
  | nil => intro seen; exact ⟨rfl, rfl⟩
  | cons n rest ih =>
    intro seen
    by_cases hk : neighborKey d n ∈ seen
    · simp only [neighborFold, neighborFoldK, if_pos hk]
      exact ih seen
    · simp only [neighborFold, neighborFoldK, if_neg hk, List.map_cons]
      rcases ih (neighborKey d n :: seen) with ⟨h1, h2⟩
      exact ⟨h1, by rw [h2]⟩

theorem expandLoop_eq_mapK (store : List Entry) (base : List Rec) :
    ∀ seen, expandLoop store base seen =
      (expandLoopK store base seen).map Prod.snd := by
  induction base with
  | nil => intro seen; rfl
  | cons r rest ih =>
    intro seen
    rcases hdoc : r.metadata.doc_id with _ | dval
    all_goals rcases hci : r.metadata.chunk_index with _ | cival
    case none.none | none.some | some.none =>
      all_goals (
        simp only [expandLoop, expandLoopK, hdoc, hci]
        by_cases hk : ((r.document, none) : KeyT) ∈ seen
        · rw [if_pos hk, if_pos hk]
          exact ih seen
        · rw [if_neg hk, if_neg hk, List.map_cons]
          rw [ih (((r.document, none) : KeyT) :: seen)])
    case some.some =>
      simp only [expandLoop, expandLoopK, hdoc, hci]
      rcases neighborFold_eq_mapK dval
        (getChunksByIndices store dval
          [cival - 2, cival - 1, cival + 1, cival + 2])
        (if ((dval, some cival) : KeyT) ∈ seen then seen
          else ((dval, some cival) : KeyT) :: seen) with ⟨h1, h2⟩
      rw [h1, h2, ih]
      rw [List.map_append, List.map_append]
      by_cases h : ((dval, some cival) : KeyT) ∈ seen <;> simp [h]

theorem insertAsc_perm (a : Int) (l : List Int) :
    List.Perm (insertAsc a l) (a :: l) := by
  induction l with
  | nil => exact List.Perm.refl _
  | cons b m ih =>
    by_cases h : a ≤ b
    · simp only [insertAsc, if_pos h]
      exact List.Perm.refl _
    · simp only [insertAsc, if_neg h]
      exact (ih.cons b).trans (List.Perm.swap a b m)

theorem insertAsc_sorted (a : Int) (l : List Int)
    (h : l.Pairwise (· ≤ ·)) :
    (insertAsc a l).Pairwise (· ≤ ·) := by
  induction l with
  | nil => simp [insertAsc]
  | cons b m ih =>
    rcases List.pairwise_cons.mp h with ⟨hb, hm⟩
    by_cases hab : a ≤ b
    · simp only [insertAsc, if_pos hab]
      refine List.Pairwise.cons ?_ (List.Pairwise.cons hb hm)
      intro x hx
      rcases List.mem_cons.mp hx with rfl | hx
      · exact hab
      · exact le_trans hab (hb x hx)
    · simp only [insertAsc, if_neg hab]
      refine List.Pairwise.cons ?_ (ih hm)
      intro x hx
      rcases List.mem_cons.mp ((insertAsc_perm a m).mem_iff.mp hx) with
        rfl | hx
      · exact le_of_not_le hab
      · exact hb x hx

theorem sortAscInt_perm (l : List Int) :
    List.Perm (sortAscInt l) l := by
  induction l with
  | nil => exact List.Perm.refl _
  | cons a m ih =>
    simp only [sortAscInt, List.foldr_cons]
    exact (insertAsc_perm a _).trans (ih.cons a)

theorem sortAscInt_sorted (l : List Int) :
    (sortAscInt l).Pairwise (· ≤ ·) := by
  induction l with
  | nil => simp [sortAscInt]
  | cons a m ih =>
    simp only [sortAscInt, List.foldr_cons]
    exact insertAsc_sorted a _ ih

theorem uniqAscInts_sorted_lt (l : List Int) :
    (uniqAscInts l).Pairwise (· < ·) := by
  have hs := sortAscInt_sorted ((l.filter (fun i => decide (0 ≤ i))).dedup)
  have hnd : (sortAscInt
      ((l.filter (fun i => decide (0 ≤ i))).dedup)).Nodup := by
    rw [(sortAscInt_perm _).nodup_iff]
    exact List.nodup_dedup _
  have hand := List.Pairwise.and hs hnd
  unfold uniqAscInts
  refine hand.imp ?_
  rintro a b ⟨hle, hne⟩
  exact lt_of_le_of_ne hle hne

/-! ## Claim theorems -/

/-- C9: Chunker construction raises the configuration error exactly when
chunk_overlap >= chunk_size, and succeeds for every pair with
chunk_overlap < chunk_size. -/
theorem claim_C9 (chunk_size chunk_overlap : Int) :
    (chunk_size ≤ chunk_overlap →
      mkChunker chunk_size chunk_overlap =
        Except.error "chunk_overlap must be smaller than chunk_size".data) ∧
    (chunk_overlap < chunk_size →
      mkChunker chunk_size chunk_overlap =
        Except.ok (Chunker.mk chunk_size chunk_overlap)) := by
  constructor
  · intro h; simp [mkChunker, ge_iff_le, h]
  · intro h; simp [mkChunker, not_le.mpr h]

/-- C9 witness: constructing with (1000, 200) succeeds; with (1000, 1000)
it raises the configuration error. -/
theorem claim_C9_witness :
    ((200 : Int) < 1000 ∧
      mkChunker 1000 200 = Except.ok (Chunker.mk 1000 200)) ∧
    ((1000 : Int) ≤ 1000 ∧
      mkChunker 1000 1000 =
        Except.error "chunk_overlap must be smaller than chunk_size".data) :=
  ⟨⟨by decide, (claim_C9 1000 200).2 (by decide)⟩,
   ⟨by decide, (claim_C9 1000 1000).1 (by decide)⟩⟩

/-- C5 counterexample: "a\n\nb" has length 4 <= chunk_size = 1000, but
chunk returns ["a b"], not [strip("a\n\nb")]: the blank-line separator is
replaced by a single joining space.  (Whitespace-only input likewise yields
[] rather than [""].) -/
theorem claim_C5_counterexample :
    "a\n\nb".data.length ≤ 1000 ∧
    chunkText 1000 200 "a\n\nb".data = ["a b".data] ∧
    chunkText 1000 200 "a\n\nb".data ≠ [pyStrip "a\n\nb".data] :=
  ⟨by decide, by decide, by decide⟩

/-- C5 (amended): for text whose stripped form is nonempty and free of
blank-line separators, with length at most chunk_size, chunk returns
exactly the singleton [strip(text)]. -/
theorem claim_C5 (sz ov : Int) (text : Str)
    (hnz : pyStrip text ≠ [])
    (hnb : hasParaBreak (pyStrip text) = false)
    (hlen : (text.length : Int) ≤ sz) :
    chunkText sz ov text = [pyStrip text] := by
  have hlen2 : ((pyStrip text).length : Int) ≤ sz :=
    le_trans (by exact_mod_cast pyStrip_length_le text) hlen
  unfold chunkText
  rw [if_neg hnz]
  rw [splitParas_noBreak (pyStrip text) (by rw [pyStrip_idem]; exact hnz)
    (pyStrip_idem text) hnb]
  unfold mergeParas
  simp only [List.foldl_cons, List.foldl_nil]
  rw [if_neg (not_lt.mpr hlen2)]
  unfold awl
  simp only [ne_eq, not_true_eq_false, if_neg, reduceIte]
  rw [if_pos hlen2]
  simp [hnz, pyStrip_idem]

/-- C5 witness: a short single-paragraph text is returned as the singleton
of its stripped form. -/
theorem claim_C5_witness :
    pyStrip " hi there ".data ≠ [] ∧
    hasParaBreak (pyStrip " hi there ".data) = false ∧
    ((" hi there ".data.length : Int) ≤ 1000) ∧
    chunkText 1000 200 " hi there ".data = [pyStrip " hi there ".data] :=
  ⟨by decide, by decide, by decide,
   claim_C5 1000 200 " hi there ".data (by decide) (by decide) (by decide)⟩

/-- C6 counterexample: with chunk_size 10 and overlap 0, the text
"aaaa\nbbbbbbbbb" is hard-split at exactly index 10 (pyRfindSpace finds no
space), although its first 10 characters contain whitespace (the newline),
so the second chunk "bbbb" starts in the middle of the word "bbbbbbbbb":
characters 9 and 10 of the original text are both non-whitespace. -/
theorem claim_C6_counterexample :
    chunkText 10 0 "aaaa\nbbbbbbbbb".data =
      ["aaaa\nbbbbb".data, "bbbb".data] ∧
    '\n' ∈ "aaaa\nbbbbbbbbb".data.take 10 ∧
    pyIsSpace '\n' = true ∧
    pyRfindSpace "aaaa\nbbbbbbbbb".data 10 = -1 ∧
    "aaaa\nbbbbbbbbb".data[9]? = some 'b' ∧
    "aaaa\nbbbbbbbbb".data[10]? = some 'b' :=
  ⟨by decide, by decide, by decide, by decide, by decide, by decide⟩

/-- C6 (amended): the anti-word-splitting mechanics act on the literal
space character, not on general whitespace.  Hard split: when the first
chunk_size characters contain a space the split lands on the last such
space, the emitted piece is everything before it and the remainder starts
right after it; otherwise -- even when other whitespace such as a newline
is present -- the split falls back to exactly chunk_size.  Overlap: the
overlap tail starts right after the first space at or past
len(text) - chunk_overlap; with no such space it is the raw character
tail. -/
theorem claim_C6 :
    (∀ (sz : Int) (nc : Str), 0 < sz → sz < (nc.length : Int) →
      ((' ' ∈ nc.take sz.toNat) →
        ∃ i : Nat, pyRfindSpace nc sz = (i : Int) ∧ i < sz.toNat ∧
          nc[i]? = some ' ' ∧
          (∀ j : Nat, i < j → j < sz.toNat → nc[j]? ≠ some ' ') ∧
          hardSplit sz nc = (pyStrip (nc.take i), pyStrip (nc.drop i))) ∧
      ((' ' ∉ nc.take sz.toNat) →
        pyRfindSpace nc sz = -1 ∧
        hardSplit sz nc =
          (pyStrip (nc.take sz.toNat), pyStrip (nc.drop sz.toNat)))) ∧
    (∀ (ov : Int) (text : Str), 0 < ov → ov < (text.length : Int) →
      ((' ' ∈ text.drop (text.length - ov.toNat)) →
        ∃ j : Nat, text.length - ov.toNat ≤ j ∧ text[j]? = some ' ' ∧
          (∀ m : Nat, text.length - ov.toNat ≤ m → m < j →
            text[m]? ≠ some ' ') ∧
          safeOverlap ov text = text.drop (j + 1)) ∧
      ((' ' ∉ text.drop (text.length - ov.toNat)) →
        safeOverlap ov text = text.drop (text.length - ov.toNat))) := by
  constructor
  · intro sz nc hsz hlen
    have hs0 : ¬ sz < 0 := by omega
    have hslice : pySlice0 nc sz = nc.take sz.toNat := by
      simp [pySlice0, hs0]
    have hszle : sz.toNat ≤ nc.length := by omega
    constructor
    · intro hmem
      cases hli : lastSpaceIdx (nc.take sz.toNat) with
      | none => exact absurd hmem ((lastSpaceIdx_none _).mp hli)
      | some i =>
        rcases lastSpaceIdx_spec _ i hli with ⟨h1, h2⟩
        have hilt : i < sz.toNat := by
          rcases List.getElem?_eq_some_iff.mp h1 with ⟨hl, -⟩
          rw [List.length_take] at hl
          omega
        have h1n : nc[i]? = some ' ' := by
          rw [← List.getElem?_take_of_lt hilt]; exact h1
        have hmax : ∀ j : Nat, i < j → j < sz.toNat → nc[j]? ≠ some ' ' := by
          intro j hij hjlt
          have := h2 j hij
          rwa [List.getElem?_take_of_lt hjlt] at this
        have hr : pyRfindSpace nc sz = (i : Int) := by
          unfold pyRfindSpace
          rw [hslice, hli]
        refine ⟨i, hr, hilt, h1n, hmax, ?_⟩
        have hne1 : ¬ ((i : Int)) = -1 := by omega
        have hnn : ¬ ((i : Int)) < 0 := by omega
        simp [hardSplit, hr, hne1, hnn, pySlice0, pySliceFrom]
    · intro hnm
      have hli : lastSpaceIdx (nc.take sz.toNat) = none :=
        (lastSpaceIdx_none _).mpr hnm
      have hr : pyRfindSpace nc sz = -1 := by
        unfold pyRfindSpace
        rw [hslice, hli]
      refine ⟨hr, ?_⟩
      simp [hardSplit, hr, pySlice0, pySliceFrom, hs0]
  · intro ov text hov hlen
    have htne : text ≠ [] := by
      intro h; subst h
      simp at hlen; omega
    have hc1 : ¬ (text = [] ∨ ov ≤ 0) := by
      push_neg; exact ⟨htne, by omega⟩
    have hc2 : ¬ ((text.length : Int) ≤ ov) := not_le.mpr hlen
    constructor
    · intro hmem
      cases hfi : firstSpaceIdx (text.drop (text.length - ov.toNat)) with
      | none => exact absurd hmem ((firstSpaceIdx_none _).mp hfi)
      | some j0 =>
        rcases firstSpaceIdx_spec _ j0 hfi with ⟨h1, h2⟩
        have h1n : text[text.length - ov.toNat + j0]? = some ' ' := by
          rw [← List.getElem?_drop]; exact h1
        refine ⟨text.length - ov.toNat + j0, by omega, h1n, ?_, ?_⟩
        · intro m hml hmu
          have hrw : text[m]? =
              (text.drop (text.length - ov.toNat))[m - (text.length - ov.toNat)]? := by
            rw [List.getElem?_drop]
            congr 1
            omega
          rw [hrw]
          exact h2 _ (by omega)
        · unfold safeOverlap
          rw [if_neg hc1, if_neg hc2]
          have hfs : pyFindSpace text (text.length - ov.toNat) =
              ((text.length - ov.toNat + j0 : Nat) : Int) := by
            unfold pyFindSpace
            rw [hfi]
          have hne : ¬ ((text.length - ov.toNat + j0 : Nat) : Int) = -1 := by
            omega
          simp only [hfs]
          rw [if_neg hne]
          have ht : ((text.length - ov.toNat + j0 : Nat) : Int).toNat =
              text.length - ov.toNat + j0 := by omega
          rw [ht]
    · intro hnm
      have hfi : firstSpaceIdx (text.drop (text.length - ov.toNat)) = none :=
        (firstSpaceIdx_none _).mpr hnm
      unfold safeOverlap
      rw [if_neg hc1, if_neg hc2]
      have hfs : pyFindSpace text (text.length - ov.toNat) = -1 := by
        unfold pyFindSpace
        rw [hfi]
      simp [hfs]

/-- C6 witness: for "ab cd efgh" with chunk_size 5 the hard split lands on
the last space among the first five characters; for "ab c def" with
overlap 3 the tail "def" has no space, so the raw tail is the overlap. -/
theorem claim_C6_witness :
    ((0 : Int) < 5 ∧ (5 : Int) < ("ab cd efgh".data.length : Int) ∧
      ' ' ∈ "ab cd efgh".data.take (5 : Int).toNat ∧
      (∃ i : Nat, pyRfindSpace "ab cd efgh".data 5 = (i : Int) ∧
        i < (5 : Int).toNat ∧ "ab cd efgh".data[i]? = some ' ' ∧
        (∀ j : Nat, i < j → j < (5 : Int).toNat →
          "ab cd efgh".data[j]? ≠ some ' ') ∧
        hardSplit 5 "ab cd efgh".data =
          (pyStrip ("ab cd efgh".data.take i),
            pyStrip ("ab cd efgh".data.drop i)))) ∧
    ((0 : Int) < 3 ∧ (3 : Int) < ("ab c def".data.length : Int) ∧
      ' ' ∉ "ab c def".data.drop ("ab c def".data.length - (3 : Int).toNat) ∧
      safeOverlap 3 "ab c def".data =
        "ab c def".data.drop ("ab c def".data.length - (3 : Int).toNat)) :=
  ⟨⟨by decide, by decide, by decide,
    (claim_C6.1 5 "ab cd efgh".data (by decide) (by decide)).1 (by decide)⟩,
   ⟨by decide, by decide, by decide,
    (claim_C6.2 3 "ab c def".data (by decide) (by decide)).2 (by decide)⟩⟩

/-- C3: a successful re-ingest of a document fully replaces its chunks: in
the resulting collection the rows whose id carries the f"{doc_id}_" marker
are exactly the fresh batch; none of the prior generation survives. -/
theorem claim_C3 (st : VSState) (chunks : List Str) (marg : MetaArg)
    (a1 a2 : Outcome) (st' : VSState) (d : Str)
    (hne : chunks.isEmpty = false)
    (hd : docIdOfMetas (computeMetadatas marg chunks.length) = some d)
    (hok : addOp st chunks marg a1 a2 = (st', none)) :
    st'.entries.filter (fun e => (d ++ ['_']).isPrefixOf e.eid) =
      mkBatch d chunks (computeMetadatas marg chunks.length) := by
  have hsh := addOp_success_shape st chunks marg a1 a2 st' d hne hd hok
  rcases hsh with h | h <;> rw [h]
  · rw [List.filter_append, filter_pref_delByDocId, filter_pref_mkBatch]
    rfl
  · rw [filter_pref_mkBatch]

/-- C3 witness: re-ingesting doc "A" over a store that already holds an
older chunk "A_0" and an unrelated doc "B" succeeds and leaves exactly the
new batch under the "A_" marker. -/
theorem claim_C3_witness :
    c3Chunks.isEmpty = false ∧
    docIdOfMetas (computeMetadatas c3Marg c3Chunks.length) = some ['A'] ∧
    c3Res.2 = none ∧
    c3Res.1.entries.filter (fun e => (['A'] ++ ['_']).isPrefixOf e.eid) =
      mkBatch ['A'] c3Chunks (computeMetadatas c3Marg c3Chunks.length) :=
  ⟨by decide, by decide, by decide,
    claim_C3 st0 c3Chunks c3Marg Outcome.ok Outcome.ok c3Res.1 ['A']
      (by decide) (by decide) (by decide)⟩

/-- C10: on a successful add of a non-empty batch, the state is the prior
collection purged of the doc marker (or the recreated empty one) plus the
fresh batch, whose ids are exactly f"{d}_0" through f"{d}_{n-1}" with d
taken from the first normalized metadata record, and whose stored
chunk_index is the 0-based batch position no matter what chunk_index the
caller supplied. -/
theorem claim_C10 (st : VSState) (chunks : List Str) (marg : MetaArg)
    (a1 a2 : Outcome) (st' : VSState) (d : Str)
    (hne : chunks.isEmpty = false)
    (hd : docIdOfMetas (computeMetadatas marg chunks.length) = some d)
    (hok : addOp st chunks marg a1 a2 = (st', none)) :
    (st'.entries = delByDocId st.entries d ++
        mkBatch d chunks (computeMetadatas marg chunks.length) ∨
      st'.entries = mkBatch d chunks (computeMetadatas marg chunks.length)) ∧
    (mkBatch d chunks (computeMetadatas marg chunks.length)).map
        (fun e => e.eid) =
      (List.range chunks.length).map (fun i => cid d (Int.ofNat i)) ∧
    ∀ i, i < chunks.length →
      ((mkBatch d chunks (computeMetadatas marg chunks.length)).getD i
          (Entry.mk [] [] {})).metadata.chunk_index = some (i : Int) := by
  refine ⟨addOp_success_shape st chunks marg a1 a2 st' d hne hd hok,
    mkBatch_ids d chunks _, ?_⟩
  intro i hi
  rw [mkBatch_getD d chunks _ i hi]
  exact computeMetadatas_chunk_index marg chunks.length i hi

/-- C10 witness: adding two chunks for doc "A" whose caller-supplied
metadata carries chunk_index 7 stores ids "A_0", "A_1" with chunk_index 0
and 1. -/
theorem claim_C10_witness :
    c3Chunks.isEmpty = false ∧
    docIdOfMetas (computeMetadatas c10Marg c3Chunks.length) = some ['A'] ∧
    c10Res.2 = none ∧
    ((mkBatch ['A'] c3Chunks
        (computeMetadatas c10Marg c3Chunks.length)).map (fun e => e.eid) =
      (List.range c3Chunks.length).map (fun i => cid ['A'] (Int.ofNat i))) ∧
    (∀ i, i < c3Chunks.length →
      ((mkBatch ['A'] c3Chunks
          (computeMetadatas c10Marg c3Chunks.length)).getD i
          (Entry.mk [] [] {})).metadata.chunk_index = some (i : Int)) := by
  have h := claim_C10 st0 c3Chunks c10Marg Outcome.ok Outcome.ok c10Res.1
    ['A'] (by decide) (by decide) (by decide)
  exact ⟨by decide, by decide, by decide, h.2.1, h.2.2⟩

/-- C8: on a StopIteration from the first insert attempt the collection is
recreated (emptied) exactly once and the insert retried; a successful
retry commits just the fresh batch and rebuilds BM25; a failing retry
propagates that second failure with no further attempt; a non-transient
first failure propagates immediately without any recreation or retry. -/
theorem claim_C8 (st : VSState) (chunks : List Str) (marg : MetaArg)
    (d : Str) (hne : chunks.isEmpty = false)
    (hd : docIdOfMetas (computeMetadatas marg chunks.length) = some d) :
    (addOp st chunks marg (Outcome.fail PyErr.stopIter) Outcome.ok =
      (VSState.mk (mkBatch d chunks (computeMetadatas marg chunks.length))
        (rebuildBM25
          (mkBatch d chunks (computeMetadatas marg chunks.length))),
        none)) ∧
    (∀ e, addOp st chunks marg (Outcome.fail PyErr.stopIter)
        (Outcome.fail e) = (VSState.mk [] st.bm25docs, some e)) ∧
    (∀ e, e ≠ PyErr.stopIter → ∀ a2,
      addOp st chunks marg (Outcome.fail e) a2 =
        (VSState.mk (delByDocId st.entries d) st.bm25docs, some e)) := by
  refine ⟨?_, ?_, ?_⟩
  · unfold addOp
    simp [hne, hd]
  · intro e
    unfold addOp
    simp [hne, hd]
  · intro e he a2
    cases e with
    | valueErr =>
      unfold addOp
      simp [hne, hd]
    | stopIter => exact absurd rfl he
    | upstream n =>
      unfold addOp
      simp [hne, hd]

/-- C4: no dedup key -- (doc_id, chunk_index) when resolvable, else the
chunk text -- is ever emitted twice by the expansion of
KnowledgeBase.retrieve: pairing every emitted record with its
emission-time key, the keys are pairwise distinct, and the expansion
output is exactly those records; the neighbor fetch order of
get_chunks_by_indices is the deduplicated requested index set sorted
strictly ascending. -/
theorem claim_C4 :
    (∀ (store : List Entry) (base : List Rec),
      ((expandLoopK store base []).map Prod.fst).Nodup ∧
      expandHits store base = (expandLoopK store base []).map Prod.snd) ∧
    (∀ indices : List Int, (uniqAscInts indices).Pairwise (· < ·)) := by
  refine ⟨fun store base => ⟨(expandLoopK_spec store base []).1, ?_⟩,
    uniqAscInts_sorted_lt⟩
  unfold expandHits
  by_cases h : base.isEmpty
  · rw [if_pos h]
    have hb : base = [] := List.isEmpty_iff.mp h
    subst hb
    rfl
  · rw [if_neg h]
    exact expandLoop_eq_mapK store base []

/-- C1 (code behaviour at the failing input): after ingesting docs "A",
"B", "C" and then KnowledgeBase.delete_document("A"), the registry no
longer lists "A" and the embedding index holds no "A_"-prefixed chunk, but
delete never rebuilds the BM25 index: _bm25_docs still differs from a
rebuild over the store and still carries doc "A"'s row, so a search whose
BM25 scorer ranks that stale row positively returns the deleted document's
chunk through the lexical branch. -/
theorem claim_C1 :
    c1Deleted.1 = [['B'], ['C']] ∧
    c1Deleted.2.2 = true ∧
    c1Deleted.2.1.entries.filter
      (fun e => ((['A'] : Str) ++ ['_']).isPrefixOf e.eid) = [] ∧
    c1Deleted.2.1.bm25docs ≠ rebuildBM25 c1Deleted.2.1.entries ∧
    (∃ e ∈ c1Deleted.2.1.bm25docs, e.metadata.doc_id = some ['A']) ∧
    searchOp c1Deleted.2.1 "hello".data none [] false c1Scores 6 20 none =
      Except.ok [Rec.mk "hello world".data
        { doc_id := some ['A'], chunk_index := some 0 } none] := by
  refine ⟨by decide, by decide, by decide, by decide, ?_, by rfl⟩
  exact ⟨Entry.mk "A_0".data "hello world".data
    { doc_id := some ['A'], chunk_index := some 0 }, by decide, by decide⟩

/-- C7: embedding and generation failures propagate unmodified.  When the
query-embedding call fails, search raises exactly that error (the two
retrieval branches are otherwise swallowed into empty lists, never the
embedding call); when retrieval fails inside ask, ask raises it; when
retrieval succeeds with hits and the LLM generate call fails, ask raises
that failure unmodified. -/
theorem claim_C7 :
    (∀ (st : VSState) (query : Str) (e : PyErr) (vecRaw : List Rec)
        (vecFail : Bool) (gs : List Str → List ℚ) (k fetch_k : Nat)
        (dt : Option ℚ),
      searchOp st query (some e) vecRaw vecFail gs k fetch_k dt =
        Except.error e) ∧
    (∀ (e : PyErr) (k : Nat) (gen : Str → Except PyErr Str),
      askOp (Except.error e) k gen = Except.error e) ∧
    (∀ (results : List Rec) (k : Nat) (gen : Str → Except PyErr Str)
        (e : PyErr), results.isEmpty = false →
      gen (buildContext (results.take k)) = Except.error e →
      askOp (Except.ok results) k gen = Except.error e) := by
  refine ⟨fun st q e vr vf gs k fk dt => rfl, fun e k gen => rfl, ?_⟩
  intro results k gen e hne hgen
  unfold askOp
  simp only [hne, Bool.false_eq_true, if_false, hgen]

/-- C7 witness: a ValueError from the embedding call surfaces from search
unmodified; an upstream generation failure surfaces from ask unmodified. -/
theorem claim_C7_witness :
    ([Rec.mk "t".data {} none] : List Rec).isEmpty = false ∧
    (fun (_ : Str) => Except.error (PyErr.upstream 3) :
        Str → Except PyErr Str)
      (buildContext (([Rec.mk "t".data {} none] : List Rec).take 4)) =
      Except.error (PyErr.upstream 3) ∧
    askOp (Except.ok [Rec.mk "t".data {} none]) 4
      (fun _ => Except.error (PyErr.upstream 3)) =
      Except.error (PyErr.upstream 3) ∧
    searchOp (VSState.mk [] []) "q".data (some PyErr.valueErr) [] false
      (fun _ => []) 6 20 none = Except.error PyErr.valueErr :=
  ⟨rfl, rfl,
   claim_C7.2.2 [Rec.mk "t".data {} none] 4
     (fun _ => Except.error (PyErr.upstream 3)) (PyErr.upstream 3) rfl rfl,
   claim_C7.1 (VSState.mk [] []) "q".data PyErr.valueErr [] false
     (fun _ => []) 6 20 none⟩

/-- C2 counterexample: fusion is keyed on chunk text, not chunk identity.
The semantic list holds chunk (B, 0) with text "x"; the lexical list holds
the distinct chunk (A, 5) with the same text.  Search returns only the
semantic record, and its fused score is 1/60 + 1/60 = 1/30, even though
the identity (B, 0) occurs at rank 0 of the semantic list and in no entry
of the lexical list, for which the claim's formula gives 1/60. -/
theorem claim_C2_counterexample :
    searchFuse vrX brX 6 = [Rec.mk "x".data metaB0 (some 0)] ∧
    fscore vrX brX "x".data = 1 / 30 ∧
    (∀ r ∈ brX, r.metadata.doc_id ≠ some ['B']) ∧
    (∀ r ∈ brX, r.metadata.chunk_index ≠ some 0) ∧
    (1 : ℚ) / 30 ≠ 1 / 60 :=
  ⟨by rfl,
   by norm_num [fscore, fusionScores, rrfPass, dictGetD, dictUpsert, vrX,
     brX, metaB0, metaA5],
   by decide, by decide, by norm_num⟩

/-- C2 (amended): fusion sums contributions by chunk text, so distinct
chunks with equal text collapse.  With each list's texts pairwise
distinct: every text's fused score is 1/(60+rS) + 1/(60+rL) over its
0-based ranks in the semantic and lexical lists (an absent list
contributes 0); the merged pool keeps the semantic records first and
appends only the lexical records with new texts (so a text appearing in
both lists keeps the semantic record); the ranking is a permutation of the
pool sorted descending by fused score; and ties keep the merge-insertion
order (stable). -/
theorem claim_C2 (vr br : List Rec)
    (hv : (vr.map (fun r => r.document)).Nodup)
    (hb : (br.map (fun r => r.document)).Nodup) :
    (∀ k : Str, fscore vr br k =
      (match rankOf (vr.map (fun r => r.document)) k with
       | some i => 1 / (60 + (i : ℚ))
       | none => 0) +
      (match rankOf (br.map (fun r => r.document)) k with
       | some i => 1 / (60 + (i : ℚ))
       | none => 0)) ∧
    mergedVals vr br = vr ++ br.filter
      (fun r => !((vr.map (fun r2 => r2.document)).contains r.document)) ∧
    (rankedRecs vr br).Pairwise
      (fun a b => fscore vr br b.document ≤ fscore vr br a.document) ∧
    List.Perm (rankedRecs vr br) (mergedVals vr br) ∧
    (∀ a b : Rec, fscore vr br b.document ≤ fscore vr br a.document →
      List.Sublist [a, b] (mergedVals vr br) →
      List.Sublist [a, b] (rankedRecs vr br)) := by
  refine ⟨fun k => fscore_eq vr br k hv hb, mergedVals_eq vr br hv hb,
    sortDesc_sorted _ _, sortDesc_perm _ _, ?_⟩
  intro a b hle hsub
  exact pair_sublist_sortDesc _ hle hsub

/-- C2 witness: with the semantic list ["p", "q"] and the lexical list
["q"], the fused pool is the two semantic records in order, ranked sorted
descending by fused score. -/
theorem claim_C2_witness :
    (vrW.map (fun r => r.document)).Nodup ∧
    (brW.map (fun r => r.document)).Nodup ∧
    mergedVals vrW brW = vrW ++ brW.filter
      (fun r => !((vrW.map (fun r2 => r2.document)).contains r.document)) ∧
    (rankedRecs vrW brW).Pairwise
      (fun a b => fscore vrW brW b.document ≤ fscore vrW brW a.document) ∧
    fscore vrW brW "q".data =
      (match rankOf (vrW.map (fun r => r.document)) "q".data with
       | some i => 1 / (60 + (i : ℚ))
       | none => 0) +
      (match rankOf (brW.map (fun r => r.document)) "q".data with
       | some i => 1 / (60 + (i : ℚ))
       | none => 0) :=
  ⟨by decide, by decide,
   (claim_C2 vrW brW (by decide) (by decide)).2.1,
   (claim_C2 vrW brW (by decide) (by decide)).2.2.1,
   (claim_C2 vrW brW (by decide) (by decide)).1 "q".data⟩

/-- C8 witness: with one chunk for doc "A", a transient first failure
followed by a successful retry commits the batch; a ValueError on the
retry propagates; a non-transient ValueError on the first attempt
propagates without recreation. -/
theorem claim_C8_witness :
    (["x".data] : List Str).isEmpty = false ∧
    docIdOfMetas (computeMetadatas
      (MetaArg.single { doc_id := some ['A'] }) 1) = some ['A'] ∧
    (addOp (VSState.mk [] []) ["x".data]
        (MetaArg.single { doc_id := some ['A'] })
        (Outcome.fail PyErr.stopIter) Outcome.ok =
      (VSState.mk
        (mkBatch ['A'] ["x".data]
          (computeMetadatas (MetaArg.single { doc_id := some ['A'] }) 1))
        (rebuildBM25 (mkBatch ['A'] ["x".data]
          (computeMetadatas (MetaArg.single { doc_id := some ['A'] }) 1))),
        none)) ∧
    (addOp (VSState.mk [] []) ["x".data]
        (MetaArg.single { doc_id := some ['A'] })
        (Outcome.fail PyErr.stopIter) (Outcome.fail PyErr.valueErr) =
      (VSState.mk [] [], some PyErr.valueErr)) ∧
    (addOp (VSState.mk [] []) ["x".data]
        (MetaArg.single { doc_id := some ['A'] })
        (Outcome.fail PyErr.valueErr) Outcome.ok =
      (VSState.mk (delByDocId [] ['A']) [], some PyErr.valueErr)) := by
  have h := claim_C8 (VSState.mk [] []) ["x".data]
    (MetaArg.single { doc_id := some ['A'] }) ['A'] (by decide) (by decide)
  exact ⟨by decide, by decide, h.1, h.2.1 PyErr.valueErr,
    h.2.2 PyErr.valueErr (by decide) Outcome.ok⟩

end Aspora
